import Mathlib

/-!
Verification development for the measurement-cycle orchestrator in
`src/finalv1.py`.

The Python program is shallowly embedded as follows.

* A wire line (already stripped of its terminator, as `readline().decode().strip()`
  does in the source) is a `Line := List Char`; string literals enter through
  `String.data`.
* Serial input is modelled as a list of timed events `(d, line)`: the loop's
  `ser.readline()` call blocks for `d` seconds and then yields `line`.  Elapsed
  time is a rational number of seconds; `time.time() - start > timeout` becomes
  a comparison of the accumulated elapsed time with the timeout.
* Pure text processing (`_extract_number`, the `MEASURED` parsing block of
  `read_measurement`) is translated function by function; Python `float()`
  applied to a string of digits, dots and minus signs is modelled exactly by
  `parseFloatQ` over `ℚ`.
* Images are height/width plus a pixel function; the OpenCV primitives used by
  `enhance_image_soft` (colour conversion, CLAHE, convolution) are external
  library calls, so they appear as fields of a `CvOps` record, while everything
  the repository itself contributes (the composition order, the kernel weights,
  the crop arithmetic of `apply_crop`) is concrete.
* The per-cycle body of `main` and its `while True` loop are embedded as
  `run_cycle` / `run_cycles`, returning `none` only when the modelled input
  script is too short to drive the loop to a decision.
-/

namespace TEAI

/-- A wire line, stripped of its line terminator. -/
abbrev Line := List Char

/-- `leadsWith p l` is Python's `l.startswith(p)` on stripped lines. -/
def leadsWith : Line → Line → Bool
  | [], _ => true
  | _ :: _, [] => false
  | p :: ps, c :: cs => p == c && leadsWith ps cs

/-- Helper for `splitWs`: accumulates the current word (reversed) while
scanning.  Mirrors Python `str.split()` with no separator: runs of whitespace
separate words and produce no empty fragments. -/
def splitWsAux : List Char → List Char → List Line
  | acc, [] => if acc = [] then [] else [acc.reverse]
  | acc, c :: rest =>
    if c.isWhitespace then
      (if acc = [] then [] else [acc.reverse]) ++ splitWsAux [] rest
    else splitWsAux (c :: acc) rest

/-- Python `line.split()` (whitespace split, empty fragments dropped). -/
def splitWs (l : Line) : List Line := splitWsAux [] l

/-- Everything after the first `'='`, i.e. `p.split("=", 1)[1]` for a fragment
that is known to contain an `'='` (the source only calls it under a
`startswith("W=")`-style guard). -/
def afterFirstEq : Line → Line
  | [] => []
  | c :: rest => if c = '=' then rest else afterFirstEq rest

/-- The character filter of `_extract_number` (src/finalv1.py:95):
`ch.isdigit() or ch in ".-"`. -/
def isNumChar (c : Char) : Bool := c.isDigit || c = '.' || c = '-'

/-- Numeric value of a digit string (most significant digit first). -/
def digitsToNat (cs : List Char) : ℕ := cs.foldl (fun n c => 10 * n + (c.toNat - 48)) 0

/-- Split a character list at its unique dot: `some (intPart, fracPart)` when
the list contains at most one `'.'`, `none` when it contains two or more
(in which case Python `float()` raises `ValueError`). -/
def splitDot : List Char → Option (List Char × List Char)
  | [] => some ([], [])
  | c :: rest =>
    if c = '.' then
      if rest.contains '.' then none else some ([], rest)
    else (splitDot rest).map (fun pr => (c :: pr.1, pr.2))

/-- Python `float()` on an unsigned body drawn from digits, dots and minus
signs: it must contain no further `'-'`, at most one `'.'`, and at least one
digit; its value is `intPart + fracPart / 10 ^ |fracPart|`. -/
def parseUnsigned (body : List Char) : Option ℚ :=
  if body.contains '-' then none
  else
    match splitDot body with
    | none => none
    | some (ip, fp) =>
      if ip ++ fp = [] then none
      else if (ip ++ fp).all Char.isDigit then
        some ((digitsToNat ip : ℚ) + (digitsToNat fp : ℚ) / (10 : ℚ) ^ fp.length)
      else none

/-- Python `float()` restricted to strings over digits, `'.'` and `'-'`
(the only characters `_extract_number` lets through): an optional leading
minus sign followed by a valid unsigned body. -/
def parseFloatQ : List Char → Option ℚ
  | [] => parseUnsigned []
  | c :: body =>
    if c = '-' then (parseUnsigned body).map (fun v => -v)
    else parseUnsigned (c :: body)

/-- `_extract_number` (src/finalv1.py:89-102): keep only digits, `'.'` and
`'-'`, then parse with `float()`, returning `None` both when nothing is kept
and when `float()` raises.  The initial `token.strip()` is subsumed by the
filter, which drops whitespace anyway. -/
def extract_number (token : Line) : Option ℚ := parseFloatQ (token.filter isNumChar)

/-- The measurement record accumulated by `read_measurement`:
optional weight (g), temperature (°C) and relative humidity (%). -/
structure Meas where
  weight : Option ℚ
  temp_c : Option ℚ
  hum_pct : Option ℚ
deriving DecidableEq

/-- The record with every field absent, as returned on timeout. -/
def measNone : Meas := ⟨none, none, none⟩

def measuredTag : Line := "MEASURED".data
def wTag : Line := "W=".data
def tTag : Line := "T=".data
def hTag : Line := "H=".data
def weighDone : Line := "WEIGH_DONE".data
def atCapture : Line := "AT_CAPTURE".data
def atHome : Line := "AT_HOME".data

/-- One fragment of a `MEASURED` line (src/finalv1.py:134-150): dispatch on the
`W=` / `T=` / `H=` tag, parse the value part, and update the field only when
parsing succeeded (`if w is not None: weight = w`). -/
def processPart (m : Meas) (p : Line) : Meas :=
  if leadsWith wTag p then
    match extract_number (afterFirstEq p) with
    | some w => { m with weight := some w }
    | none => m
  else if leadsWith tTag p then
    match extract_number (afterFirstEq p) with
    | some t => { m with temp_c := some t }
    | none => m
  else if leadsWith hTag p then
    match extract_number (afterFirstEq p) with
    | some hv => { m with hum_pct := some hv }
    | none => m
  else m

/-- One line of the measurement loop body (src/finalv1.py:129-152): lines
starting with `MEASURED` have their space-separated fragments (first token
skipped) folded into the record; every other line leaves it unchanged.  The
source's `try`/`except` around this block is dead in the model: the translation
is total. -/
def processLine (m : Meas) (line : Line) : Meas :=
  if leadsWith measuredTag line then
    ((splitWs line).drop 1).foldl processPart m
  else m

/-- `read_measurement` (src/finalv1.py:105-157) over a timed input script.
`t` is the elapsed time at the top of the `while True` loop; each event
`(d, line)` is one `ser.readline()` call taking `d` seconds.  The timeout
check `time.time() - start > timeout` precedes every read; a `WEIGH_DONE`
line breaks the loop with the accumulated record; timeout returns
`(None, None, None)` discarding the accumulated record.  The result is
`none` only when the modelled input script runs out. -/
def read_measurement_timed (timeout t : ℚ) (m : Meas) :
    List (ℚ × Line) → Option (ℚ × Meas × Bool)
  | [] => if timeout < t then some (t, measNone, false) else none
  | (d, line) :: rest =>
    if timeout < t then some (t, measNone, false)
    else if line = weighDone then some (t + d, processLine m line, true)
    else read_measurement_timed timeout (t + d) (processLine m line) rest

/-- `read_measurement` when all lines are already buffered (zero read delay),
with the orchestrator's timeout of 20 s (src/finalv1.py:320): the parsed
record, or `none` when no `WEIGH_DONE` arrives in the script. -/
def read_measurement (lines : List Line) : Option Meas :=
  (read_measurement_timed 20 0 measNone (lines.map (fun l => (0, l)))).map
    (fun r => r.2.1)

/-- `wait_for_arduino` (src/finalv1.py:75-86) over a timed input script:
check the timeout at the top of each iteration, read a line, return `true`
on exact equality with `expected`, ignore anything else; on timeout return
`false`.  `none` only when the modelled script runs out. -/
def wait_for_arduino_timed (expected : Line) (timeout t : ℚ) :
    List (ℚ × Line) → Option (ℚ × Bool)
  | [] => if timeout < t then some (t, false) else none
  | (d, line) :: rest =>
    if timeout < t then some (t, false)
    else if line = expected then some (t + d, true)
    else wait_for_arduino_timed expected timeout (t + d) rest

/-! ### Specification-side views of the parser

These functions restate, directly from the spec's wording, which numeric
updates a fragment / line / stream contributes; the claim theorems prove the
source-translated parser equal to them. -/

/-- The weight update a fragment contributes: a successful parse of the value
part of a `W=`-fragment, `none` otherwise. -/
def wUpdate (p : Line) : Option ℚ :=
  if leadsWith wTag p then extract_number (afterFirstEq p) else none

/-- The temperature update a fragment contributes (mirroring the
`W=`/`T=`/`H=` dispatch chain). -/
def tUpdate (p : Line) : Option ℚ :=
  if leadsWith wTag p then none
  else if leadsWith tTag p then extract_number (afterFirstEq p) else none

/-- The humidity update a fragment contributes. -/
def hUpdate (p : Line) : Option ℚ :=
  if leadsWith wTag p then none
  else if leadsWith tTag p then none
  else if leadsWith hTag p then extract_number (afterFirstEq p) else none

/-- Apply one optional update to a field: a successful parse overwrites,
an absent update leaves the field alone. -/
def applyUpd (d : Option ℚ) (u : Option ℚ) : Option ℚ :=
  match u with
  | some v => some v
  | none => d

/-- Last-parsed-wins: the final value of a field given its initial value and
the list of successful parses for it, in arrival order. -/
def lastUpd (d : Option ℚ) : List ℚ → Option ℚ
  | [] => d
  | v :: vs => lastUpd (some v) vs

/-- All successful weight parses contributed by one line. -/
def lineWUpd (line : Line) : List ℚ :=
  if leadsWith measuredTag line then ((splitWs line).drop 1).filterMap wUpdate else []

/-- All successful temperature parses contributed by one line. -/
def lineTUpd (line : Line) : List ℚ :=
  if leadsWith measuredTag line then ((splitWs line).drop 1).filterMap tUpdate else []

/-- All successful humidity parses contributed by one line. -/
def lineHUpd (line : Line) : List ℚ :=
  if leadsWith measuredTag line then ((splitWs line).drop 1).filterMap hUpdate else []

/-- All successful weight parses in a stream of lines, in arrival order. -/
def streamWUpd : List Line → List ℚ
  | [] => []
  | l :: ls => lineWUpd l ++ streamWUpd ls

/-- All successful temperature parses in a stream of lines. -/
def streamTUpd : List Line → List ℚ
  | [] => []
  | l :: ls => lineTUpd l ++ streamTUpd ls

/-- All successful humidity parses in a stream of lines. -/
def streamHUpd : List Line → List ℚ
  | [] => []
  | l :: ls => lineHUpd l ++ streamHUpd ls

/-- Total read duration of a timed input script. -/
def sumD : List (ℚ × Line) → ℚ
  | [] => 0
  | e :: rest => e.1 + sumD rest

/-! ### Image model (`apply_crop`, `enhance_image_soft`) -/

/-- A colour frame: height, width, and a BGR pixel function. -/
structure Img where
  h : ℕ
  w : ℕ
  px : ℕ → ℕ → ℚ × ℚ × ℚ

/-- A single channel of a frame. -/
structure Chan where
  h : ℕ
  w : ℕ
  px : ℕ → ℕ → ℚ

/-- First (luminance, after BGR→LAB) channel of a frame. -/
def chanL (img : Img) : Chan := ⟨img.h, img.w, fun y x => (img.px y x).1⟩

/-- Second channel of a frame. -/
def chanA (img : Img) : Chan := ⟨img.h, img.w, fun y x => (img.px y x).2.1⟩

/-- Third channel of a frame. -/
def chanB2 (img : Img) : Chan := ⟨img.h, img.w, fun y x => (img.px y x).2.2⟩

/-- `cv2.merge` of three channels back into a frame. -/
def mergeChans (l a b : Chan) : Img := ⟨l.h, l.w, fun y x => (l.px y x, a.px y x, b.px y x)⟩

/-- The OpenCV primitives `enhance_image_soft` calls.  They are external
library code, not code of this repository, so they enter the model as
arbitrary (deterministic) functions; the repository's contribution — which
primitives are called, in which order, with which constants — stays concrete. -/
structure CvOps where
  cvtColorBGR2LAB : Img → Img
  cvtColorLAB2BGR : Img → Img
  claheApply : ℚ → ℕ → ℕ → Chan → Chan
  filter2D : (ℕ → ℕ → ℚ) → Img → Img

/-- The rows of the fixed 3×3 sharpening kernel (src/finalv1.py:197-199):
`[[0, -0.2, 0], [-0.2, 1.8, -0.2], [0, -0.2, 0]]`, with the float literals
written as the rationals −1/5 and 9/5. -/
def kernel_rows : List (List ℚ) := [[0, -1/5, 0], [-1/5, 9/5, -1/5], [0, -1/5, 0]]

/-- Entry `(i, j)` of the sharpening kernel. -/
def sharpen_kernel (i j : ℕ) : ℚ := (kernel_rows.getD i []).getD j 0

/-- The contrast stage of `enhance_image_soft` (src/finalv1.py:188-195):
BGR→LAB, CLAHE with clip limit 1.5 and an 8×8 tile grid on the luminance
channel only, remerge, LAB→BGR. -/
def clahe_merge_stage (ops : CvOps) (img : Img) : Img :=
  let lab := ops.cvtColorBGR2LAB img
  ops.cvtColorLAB2BGR
    (mergeChans (ops.claheApply (3/2) 8 8 (chanL lab)) (chanA lab) (chanB2 lab))

/-- `enhance_image_soft` (src/finalv1.py:187-202): the contrast stage followed
by `cv2.filter2D` with the fixed sharpening kernel. -/
def enhance_image_soft (ops : CvOps) (img : Img) : Img :=
  let lab := ops.cvtColorBGR2LAB img
  let l2 := ops.claheApply (3/2) 8 8 (chanL lab)
  let lab2 := mergeChans l2 (chanA lab) (chanB2 lab)
  let enhanced := ops.cvtColorLAB2BGR lab2
  ops.filter2D sharpen_kernel enhanced

/-- `apply_crop` (src/finalv1.py:205-218), with the module-level configuration
constants `ENABLE_CROP, CROP_X, CROP_Y, CROP_W, CROP_H` passed as parameters:
clamp the corner to the frame, intersect with the frame bounds, return the
frame untouched when cropping is disabled or the clamped rectangle is empty,
otherwise the NumPy slice `img[y:y2, x:x2]`. -/
def apply_crop (enable : Bool) (cx cy cw ch : ℤ) (img : Img) : Img :=
  if enable = false then img
  else
    let x := max 0 cx
    let y := max 0 cy
    let x2 := min (img.w : ℤ) (x + cw)
    let y2 := min (img.h : ℤ) (y + ch)
    if x2 ≤ x ∨ y2 ≤ y then img
    else ⟨(y2 - y).toNat, (x2 - x).toNat, fun i j => img.px (y.toNat + i) (x.toNat + j)⟩

/-- The image half of one cycle body (src/finalv1.py:285-298): the frame is
cropped first (`frame_proc = apply_crop(frame)`), and the enhanced artifact is
computed from the cropped frame (`enh_frame = enhance_image_soft(frame_proc)`).
Returns (processed frame, enhanced frame). -/
def capture_step (ops : CvOps) (enable : Bool) (cx cy cw ch : ℤ) (frame : Img) :
    Img × Img :=
  let frame_proc := apply_crop enable cx cy cw ch frame
  (frame_proc, enhance_image_soft ops frame_proc)

/-! ### Orchestrator (`main`, src/finalv1.py:249-347) -/

/-- The device's scripted behaviour for one press of ENTER: the timed lines
arriving while awaiting `AT_CAPTURE`, whether `cap.read()` succeeds, the timed
lines of the measurement phase, and the timed lines while awaiting `AT_HOME`. -/
structure CycleEnv where
  captureAck : List (ℚ × Line)
  capOk : Bool
  measure : List (ℚ × Line)
  homeAck : List (ℚ × Line)
deriving DecidableEq

/-- What one iteration of the loop body did: the command bytes written to the
serial port, whether a frame was captured, and the measurement triple of the
CSV row (`none` when the iteration was skipped and wrote no row). -/
structure CycleResult where
  cmds : List Char
  imageCaptured : Bool
  recorded : Option Meas
deriving DecidableEq

/-- One iteration of the `while True` body of `main` (src/finalv1.py:261-347):
write `'C'`; if `AT_CAPTURE` does not arrive within 15 s, print and `continue`
(no further command, no row); otherwise capture (failure is non-fatal), write
`'W'`, collect the measurement with a 20 s timeout, write `'H'`, await
`AT_HOME` for 15 s (result only logged), and append the CSV row.  `none` only
when a modelled input script runs out. -/
def run_cycle (env : CycleEnv) : Option CycleResult :=
  match wait_for_arduino_timed atCapture 15 0 env.captureAck with
  | none => none
  | some (_, false) => some ⟨['C'], false, none⟩
  | some (_, true) =>
    match read_measurement_timed 20 0 measNone env.measure with
    | none => none
    | some (_, m, _) =>
      match wait_for_arduino_timed atHome 15 0 env.homeAck with
      | none => none
      | some _ => some ⟨['C', 'W', 'H'], env.capOk, some m⟩

/-- The per-cycle loop of `main` over a list of scripted cycles, starting from
sample index `idx` (`sample_idx = 1` at src/finalv1.py:249): returns the CSV
rows `(sample_idx, measurement)` in order and the final value of `sample_idx`.
A skipped cycle writes no row and leaves the index unchanged; a recorded cycle
writes one row and then increments the index (src/finalv1.py:347). -/
def run_cycles : ℕ → List CycleEnv → Option (List (ℕ × Meas) × ℕ)
  | idx, [] => some ([], idx)
  | idx, env :: rest =>
    match run_cycle env with
    | none => none
    | some r =>
      match r.recorded with
      | none => run_cycles idx rest
      | some m =>
        match run_cycles (idx + 1) rest with
        | none => none
        | some (rows, finalIdx) => some ((idx, m) :: rows, finalIdx)

/-! ### Helper lemmas -/

/-- The space character, by code point. -/
def spaceChar : Char := Char.ofNat 32

theorem spaceChar_ws : spaceChar.isWhitespace = true := by decide

theorem isNumChar_not_ws {c : Char} (h : isNumChar c = true) : c.isWhitespace = false := by
  cases hws : c.isWhitespace with
  | false => rfl
  | true =>
    exfalso
    simp [Char.isWhitespace] at hws
    rcases hws with ((h1 | h1) | h1) | h1 <;> subst h1 <;> exact absurd h (by decide)

theorem leadsWith_append (p l : Line) : leadsWith p (p ++ l) = true := by
  induction p with
  | nil => rfl
  | cons c cs ih => simp [leadsWith, ih]

theorem leadsWith_ne_head {p c : Char} (ps cs : Line) (h : ¬ p = c) :
    leadsWith (p :: ps) (c :: cs) = false := by
  simp [leadsWith, h]

theorem splitWsAux_append_nonws (cs : List Char)
    (h : ∀ c ∈ cs, c.isWhitespace = false) (acc l : List Char) :
    splitWsAux acc (cs ++ l) = splitWsAux (cs.reverse ++ acc) l := by
  induction cs generalizing acc with
  | nil => simp
  | cons c cs ih =>
    have hc : c.isWhitespace = false := h c (by simp)
    have hrest : ∀ x ∈ cs, x.isWhitespace = false := fun x hx => h x (by simp [hx])
    rw [List.cons_append, show splitWsAux acc (c :: (cs ++ l)) =
      splitWsAux (c :: acc) (cs ++ l) from by simp [splitWsAux, hc], ih hrest]
    simp

theorem splitWsAux_ws_cons {c : Char} (hc : c.isWhitespace = true) (acc l : List Char) :
    splitWsAux acc (c :: l) =
      (if acc = [] then [] else [acc.reverse]) ++ splitWsAux [] l := by
  simp [splitWsAux, hc]

theorem splitWs_word_space (w : Line) (hw : ∀ c ∈ w, c.isWhitespace = false)
    (hne : w ≠ []) {sp : Char} (hsp : sp.isWhitespace = true) (rest : Line) :
    splitWs (w ++ sp :: rest) = w :: splitWs rest := by
  unfold splitWs
  rw [splitWsAux_append_nonws w hw, splitWsAux_ws_cons hsp]
  simp [hne]

theorem splitWs_word (w : Line) (hw : ∀ c ∈ w, c.isWhitespace = false) (hne : w ≠ []) :
    splitWs w = [w] := by
  unfold splitWs
  rw [show w = w ++ [] by simp, splitWsAux_append_nonws w hw]
  simp [splitWsAux, hne]

theorem filter_isNumChar_all (a : Line) (ha : ∀ c ∈ a, isNumChar c = true) :
    a.filter isNumChar = a :=
  List.filter_eq_self.mpr ha

theorem filter_isNumChar_none (s : Line) (hs : ∀ c ∈ s, isNumChar c = false) :
    s.filter isNumChar = [] := by
  simp only [List.filter_eq_nil_iff]
  intro c hc
  simp [hs c hc]

/-- `_extract_number` on a numeral followed by non-numeric suffix characters:
the filter keeps exactly the numeral. -/
theorem extract_append_nonnum (a s : Line) (ha : ∀ c ∈ a, isNumChar c = true)
    (hs : ∀ c ∈ s, isNumChar c = false) :
    extract_number (a ++ s) = parseFloatQ a := by
  unfold extract_number
  rw [List.filter_append, filter_isNumChar_all a ha, filter_isNumChar_none s hs,
    List.append_nil]

/-- `processPart` updates the three fields exactly as the per-field update
functions prescribe. -/
theorem processPart_fields (m : Meas) (p : Line) :
    processPart m p =
      ⟨applyUpd m.weight (wUpdate p), applyUpd m.temp_c (tUpdate p),
        applyUpd m.hum_pct (hUpdate p)⟩ := by
  unfold processPart wUpdate tUpdate hUpdate
  split_ifs with h1 h2 h3 <;> (cases extract_number (afterFirstEq p) <;> rfl)

theorem foldl_processPart_weight (parts : List Line) (m : Meas) :
    (parts.foldl processPart m).weight = lastUpd m.weight (parts.filterMap wUpdate) := by
  induction parts generalizing m with
  | nil => rfl
  | cons p parts ih =>
    rw [List.foldl_cons, ih, List.filterMap_cons]
    cases hu : wUpdate p with
    | none => rw [processPart_fields]; simp [applyUpd, hu]
    | some v => rw [processPart_fields]; simp [applyUpd, hu, lastUpd]

theorem foldl_processPart_temp (parts : List Line) (m : Meas) :
    (parts.foldl processPart m).temp_c = lastUpd m.temp_c (parts.filterMap tUpdate) := by
  induction parts generalizing m with
  | nil => rfl
  | cons p parts ih =>
    rw [List.foldl_cons, ih, List.filterMap_cons]
    cases hu : tUpdate p with
    | none => rw [processPart_fields]; simp [applyUpd, hu]
    | some v => rw [processPart_fields]; simp [applyUpd, hu, lastUpd]

theorem foldl_processPart_hum (parts : List Line) (m : Meas) :
    (parts.foldl processPart m).hum_pct = lastUpd m.hum_pct (parts.filterMap hUpdate) := by
  induction parts generalizing m with
  | nil => rfl
  | cons p parts ih =>
    rw [List.foldl_cons, ih, List.filterMap_cons]
    cases hu : hUpdate p with
    | none => rw [processPart_fields]; simp [applyUpd, hu]
    | some v => rw [processPart_fields]; simp [applyUpd, hu, lastUpd]

theorem processLine_weight (m : Meas) (line : Line) :
    (processLine m line).weight = lastUpd m.weight (lineWUpd line) := by
  unfold processLine lineWUpd
  split_ifs with h
  · exact foldl_processPart_weight _ m
  · rfl

theorem processLine_temp (m : Meas) (line : Line) :
    (processLine m line).temp_c = lastUpd m.temp_c (lineTUpd line) := by
  unfold processLine lineTUpd
  split_ifs with h
  · exact foldl_processPart_temp _ m
  · rfl

theorem processLine_hum (m : Meas) (line : Line) :
    (processLine m line).hum_pct = lastUpd m.hum_pct (lineHUpd line) := by
  unfold processLine lineHUpd
  split_ifs with h
  · exact foldl_processPart_hum _ m
  · rfl

theorem lastUpd_append (d : Option ℚ) (xs ys : List ℚ) :
    lastUpd d (xs ++ ys) = lastUpd (lastUpd d xs) ys := by
  induction xs generalizing d with
  | nil => rfl
  | cons v xs ih => rw [List.cons_append, lastUpd, lastUpd, ih]

theorem foldl_processLine_weight (body : List Line) (m : Meas) :
    (body.foldl processLine m).weight = lastUpd m.weight (streamWUpd body) := by
  induction body generalizing m with
  | nil => rfl
  | cons l body ih =>
    rw [List.foldl_cons, ih, streamWUpd, lastUpd_append, processLine_weight]

theorem foldl_processLine_temp (body : List Line) (m : Meas) :
    (body.foldl processLine m).temp_c = lastUpd m.temp_c (streamTUpd body) := by
  induction body generalizing m with
  | nil => rfl
  | cons l body ih =>
    rw [List.foldl_cons, ih, streamTUpd, lastUpd_append, processLine_temp]

theorem foldl_processLine_hum (body : List Line) (m : Meas) :
    (body.foldl processLine m).hum_pct = lastUpd m.hum_pct (streamHUpd body) := by
  induction body generalizing m with
  | nil => rfl
  | cons l body ih =>
    rw [List.foldl_cons, ih, streamHUpd, lastUpd_append, processLine_hum]

theorem processLine_weighDone (m : Meas) : processLine m weighDone = m := by
  have h : leadsWith measuredTag weighDone = false := by decide
  simp [processLine, h]

/-- The measurement loop with all lines buffered: it folds the body lines into
the record and stops at the terminating `WEIGH_DONE`, at elapsed time 0. -/
theorem read_buffered (body : List Line) (h : ∀ l ∈ body, l ≠ weighDone) (m : Meas) :
    read_measurement_timed 20 0 m ((body ++ [weighDone]).map (fun l => (0, l))) =
      some (0, body.foldl processLine m, true) := by
  induction body generalizing m with
  | nil =>
    simp [read_measurement_timed, processLine_weighDone]
  | cons l body ih =>
    have hl : l ≠ weighDone := h l (by simp)
    have hrest : ∀ x ∈ body, x ≠ weighDone := fun x hx => h x (by simp [hx])
    rw [List.cons_append, List.map_cons, read_measurement_timed]
    rw [if_neg (by norm_num), if_neg hl]
    rw [show (0 : ℚ) + 0 = 0 from by norm_num, List.foldl_cons]
    exact ih hrest (processLine m l)

/-- `read_measurement` on a stream of non-terminator lines followed by
`WEIGH_DONE`: the record is, per field, the last successful parse in the
stream (or absent if there is none). -/
theorem read_stream_characterization (body : List Line)
    (h : ∀ l ∈ body, l ≠ weighDone) :
    read_measurement (body ++ [weighDone]) =
      some ⟨lastUpd none (streamWUpd body), lastUpd none (streamTUpd body),
        lastUpd none (streamHUpd body)⟩ := by
  unfold read_measurement
  rw [read_buffered body h measNone]
  have e : body.foldl processLine measNone =
      ⟨lastUpd none (streamWUpd body), lastUpd none (streamTUpd body),
        lastUpd none (streamHUpd body)⟩ := by
    rw [show body.foldl processLine measNone =
        ⟨(body.foldl processLine measNone).weight, (body.foldl processLine measNone).temp_c,
          (body.foldl processLine measNone).hum_pct⟩ from rfl,
      foldl_processLine_weight, foldl_processLine_temp, foldl_processLine_hum]
    rfl
  rw [e]
  rfl

/-- A full wire measurement line `MEASURED W=<a><sa> T=<b><sb> H=<c><sc>`,
with `a b c` the numerals and `sa sb sc` the unit-suffix characters
(`g`, `C`, `%` on the real device). -/
def measuredLine (a sa b sb c sc : Line) : Line :=
  "MEASURED W=".data ++ (a ++ sa) ++ " T=".data ++ (b ++ sb) ++ " H=".data ++ (c ++ sc)

theorem measuredLine_decomp (a sa b sb c sc : Line) :
    measuredLine a sa b sb c sc =
      measuredTag ++ spaceChar :: ((wTag ++ (a ++ sa)) ++ spaceChar ::
        ((tTag ++ (b ++ sb)) ++ spaceChar :: (hTag ++ (c ++ sc)))) := by
  unfold measuredLine
  rw [show "MEASURED W=".data = measuredTag ++ spaceChar :: wTag from rfl,
    show " T=".data = spaceChar :: tTag from rfl,
    show " H=".data = spaceChar :: hTag from rfl]
  simp [List.append_assoc]

theorem splitWs_measuredLine (a sa b sb c sc : Line)
    (haw : ∀ x ∈ a ++ sa, x.isWhitespace = false)
    (hbw : ∀ x ∈ b ++ sb, x.isWhitespace = false)
    (hcw : ∀ x ∈ c ++ sc, x.isWhitespace = false) :
    splitWs (measuredLine a sa b sb c sc) =
      [measuredTag, wTag ++ (a ++ sa), tTag ++ (b ++ sb), hTag ++ (c ++ sc)] := by
  have htagM : ∀ x ∈ measuredTag, x.isWhitespace = false := by decide
  have htagW : ∀ x ∈ wTag ++ (a ++ sa), x.isWhitespace = false := by
    intro x hx
    rcases List.mem_append.mp hx with h | h
    · exact (by decide : ∀ x ∈ wTag, x.isWhitespace = false) x h
    · exact haw x h
  have htagT : ∀ x ∈ tTag ++ (b ++ sb), x.isWhitespace = false := by
    intro x hx
    rcases List.mem_append.mp hx with h | h
    · exact (by decide : ∀ x ∈ tTag, x.isWhitespace = false) x h
    · exact hbw x h
  have htagH : ∀ x ∈ hTag ++ (c ++ sc), x.isWhitespace = false := by
    intro x hx
    rcases List.mem_append.mp hx with h | h
    · exact (by decide : ∀ x ∈ hTag, x.isWhitespace = false) x h
    · exact hcw x h
  have hneW : wTag ++ (a ++ sa) ≠ [] := by simp [show wTag ≠ [] from by decide]
  have hneT : tTag ++ (b ++ sb) ≠ [] := by simp [show tTag ≠ [] from by decide]
  have hneH : hTag ++ (c ++ sc) ≠ [] := by simp [show hTag ≠ [] from by decide]
  rw [measuredLine_decomp,
    splitWs_word_space measuredTag htagM (by decide) spaceChar_ws,
    splitWs_word_space _ htagW hneW spaceChar_ws,
    splitWs_word_space _ htagT hneT spaceChar_ws,
    splitWs_word _ htagH hneH]

theorem afterFirstEq_wTag (X : Line) : afterFirstEq (wTag ++ X) = X := rfl

theorem afterFirstEq_tTag (X : Line) : afterFirstEq (tTag ++ X) = X := rfl

theorem afterFirstEq_hTag (X : Line) : afterFirstEq (hTag ++ X) = X := rfl

theorem wUpdate_wPart (X : Line) : wUpdate (wTag ++ X) = extract_number X := by
  simp [wUpdate, leadsWith_append, afterFirstEq_wTag]

theorem wUpdate_tPart (X : Line) : wUpdate (tTag ++ X) = none := by
  have hF : leadsWith wTag (tTag ++ X) = false := leadsWith_ne_head _ _ (by decide)
  simp [wUpdate, hF]

theorem wUpdate_hPart (X : Line) : wUpdate (hTag ++ X) = none := by
  have hF : leadsWith wTag (hTag ++ X) = false := leadsWith_ne_head _ _ (by decide)
  simp [wUpdate, hF]

theorem tUpdate_wPart (X : Line) : tUpdate (wTag ++ X) = none := by
  simp [tUpdate, leadsWith_append]

theorem tUpdate_tPart (X : Line) : tUpdate (tTag ++ X) = extract_number X := by
  have hF : leadsWith wTag (tTag ++ X) = false := leadsWith_ne_head _ _ (by decide)
  simp [tUpdate, hF, leadsWith_append, afterFirstEq_tTag]

theorem tUpdate_hPart (X : Line) : tUpdate (hTag ++ X) = none := by
  have hF1 : leadsWith wTag (hTag ++ X) = false := leadsWith_ne_head _ _ (by decide)
  have hF2 : leadsWith tTag (hTag ++ X) = false := leadsWith_ne_head _ _ (by decide)
  simp [tUpdate, hF1, hF2]

theorem hUpdate_wPart (X : Line) : hUpdate (wTag ++ X) = none := by
  simp [hUpdate, leadsWith_append]

theorem hUpdate_tPart (X : Line) : hUpdate (tTag ++ X) = none := by
  have hF : leadsWith wTag (tTag ++ X) = false := leadsWith_ne_head _ _ (by decide)
  simp [hUpdate, hF, leadsWith_append]

theorem hUpdate_hPart (X : Line) : hUpdate (hTag ++ X) = extract_number X := by
  have hF1 : leadsWith wTag (hTag ++ X) = false := leadsWith_ne_head _ _ (by decide)
  have hF2 : leadsWith tTag (hTag ++ X) = false := leadsWith_ne_head _ _ (by decide)
  simp [hUpdate, hF1, hF2, leadsWith_append, afterFirstEq_hTag]

theorem leadsWith_measuredLine (a sa b sb c sc : Line) :
    leadsWith measuredTag (measuredLine a sa b sb c sc) = true := by
  rw [measuredLine_decomp]
  exact leadsWith_append _ _

/-- On a full measurement line whose numerals parse, the per-field update
streams are exactly the three parsed values. -/
theorem lineUpds_measuredLine (a sa b sb c sc : Line) (va vb vc : ℚ)
    (ha : ∀ x ∈ a, isNumChar x = true) (hb : ∀ x ∈ b, isNumChar x = true)
    (hc : ∀ x ∈ c, isNumChar x = true)
    (hsa : ∀ x ∈ sa, isNumChar x = false) (hsaw : ∀ x ∈ sa, x.isWhitespace = false)
    (hsb : ∀ x ∈ sb, isNumChar x = false) (hsbw : ∀ x ∈ sb, x.isWhitespace = false)
    (hsc : ∀ x ∈ sc, isNumChar x = false) (hscw : ∀ x ∈ sc, x.isWhitespace = false)
    (hpa : parseFloatQ a = some va) (hpb : parseFloatQ b = some vb)
    (hpc : parseFloatQ c = some vc) :
    lineWUpd (measuredLine a sa b sb c sc) = [va] ∧
      lineTUpd (measuredLine a sa b sb c sc) = [vb] ∧
      lineHUpd (measuredLine a sa b sb c sc) = [vc] := by
  have haw : ∀ x ∈ a ++ sa, x.isWhitespace = false := by
    intro x hx
    rcases List.mem_append.mp hx with h | h
    · exact isNumChar_not_ws (ha x h)
    · exact hsaw x h
  have hbw : ∀ x ∈ b ++ sb, x.isWhitespace = false := by
    intro x hx
    rcases List.mem_append.mp hx with h | h
    · exact isNumChar_not_ws (hb x h)
    · exact hsbw x h
  have hcw : ∀ x ∈ c ++ sc, x.isWhitespace = false := by
    intro x hx
    rcases List.mem_append.mp hx with h | h
    · exact isNumChar_not_ws (hc x h)
    · exact hscw x h
  have hsplit := splitWs_measuredLine a sa b sb c sc haw hbw hcw
  have hea : extract_number (a ++ sa) = some va := by
    rw [extract_append_nonnum a sa ha hsa, hpa]
  have heb : extract_number (b ++ sb) = some vb := by
    rw [extract_append_nonnum b sb hb hsb, hpb]
  have hec : extract_number (c ++ sc) = some vc := by
    rw [extract_append_nonnum c sc hc hsc, hpc]
  refine ⟨?_, ?_, ?_⟩
  · rw [lineWUpd, if_pos (leadsWith_measuredLine a sa b sb c sc), hsplit]
    simp [List.filterMap_cons, wUpdate_wPart, wUpdate_tPart, wUpdate_hPart, hea]
  · rw [lineTUpd, if_pos (leadsWith_measuredLine a sa b sb c sc), hsplit]
    simp [List.filterMap_cons, tUpdate_wPart, tUpdate_tPart, tUpdate_hPart, heb]
  · rw [lineHUpd, if_pos (leadsWith_measuredLine a sa b sb c sc), hsplit]
    simp [List.filterMap_cons, hUpdate_wPart, hUpdate_tPart, hUpdate_hPart, hec]

theorem splitDot_subset (body : List Char) :
    ∀ ip fp, splitDot body = some (ip, fp) → ∀ x ∈ ip ++ fp, x ∈ body := by
  induction body with
  | nil =>
    intro ip fp h x hx
    simp [splitDot] at h
    obtain ⟨h1, h2⟩ := h
    subst h1
    subst h2
    simp at hx
  | cons c rest ih =>
    intro ip fp h x hx
    by_cases hc : c = '.'
    · subst hc
      simp [splitDot] at h
      obtain ⟨hnd, h1, h2⟩ := h
      subst h1
      subst h2
      simp at hx
      exact List.mem_cons_of_mem _ hx
    · simp only [splitDot, if_neg hc] at h
      cases hrec : splitDot rest with
      | none => rw [hrec] at h; simp at h
      | some pr =>
        rw [hrec] at h
        simp at h
        obtain ⟨h1, h2⟩ := h
        subst h1
        subst h2
        simp at hx
        rcases hx with he | he | he
        · exact he ▸ List.mem_cons_self _ _
        · exact List.mem_cons_of_mem _ (ih pr.1 pr.2 (by rw [hrec]) x
            (List.mem_append.mpr (Or.inl he)))
        · exact List.mem_cons_of_mem _ (ih pr.1 pr.2 (by rw [hrec]) x
            (List.mem_append.mpr (Or.inr he)))

/-- Python `float()` fails on any candidate string that contains no digit. -/
theorem parseUnsigned_no_digit (body : List Char)
    (hd : ∀ x ∈ body, x.isDigit = false) : parseUnsigned body = none := by
  unfold parseUnsigned
  split_ifs with h1
  · rfl
  · cases hsd : splitDot body with
    | none => rfl
    | some pr =>
      simp only
      split_ifs with h2 h3
      · rfl
      · exfalso
        rcases List.exists_mem_of_ne_nil _ h2 with ⟨x, hx⟩
        have hdig : x.isDigit = true := by
          have := List.all_eq_true.mp h3 x hx
          simpa using this
        have hmem : x ∈ body := splitDot_subset body pr.1 pr.2 (by rw [hsd]) x hx
        rw [hd x hmem] at hdig
        exact Bool.false_ne_true hdig
      · rfl

/-- Python `float()` after the `_extract_number` filter fails whenever the
original token contains no digit. -/
theorem parseFloatQ_no_digit (cs : List Char) (hd : ∀ x ∈ cs, x.isDigit = false) :
    parseFloatQ cs = none := by
  cases cs with
  | nil => show parseUnsigned [] = none; exact parseUnsigned_no_digit [] (by simp)
  | cons c rest =>
    by_cases hc : c = '-'
    · subst hc
      simp only [parseFloatQ, if_pos rfl]
      rw [parseUnsigned_no_digit rest (fun x hx => hd x (List.mem_cons_of_mem _ hx))]
      rfl
    · simp only [parseFloatQ, if_neg hc]
      exact parseUnsigned_no_digit _ hd

/-- A `MEASURED` line carrying a single `W=` fragment. -/
def measuredWOnly (val : Line) : Line := "MEASURED W=".data ++ val

theorem splitWs_measuredWOnly (val : Line) (hw : ∀ x ∈ val, x.isWhitespace = false) :
    splitWs (measuredWOnly val) = [measuredTag, wTag ++ val] := by
  have hdec : measuredWOnly val = measuredTag ++ spaceChar :: (wTag ++ val) := by
    unfold measuredWOnly
    rw [show "MEASURED W=".data = measuredTag ++ spaceChar :: wTag from rfl]
    simp [List.append_assoc]
  have htagW : ∀ x ∈ wTag ++ val, x.isWhitespace = false := by
    intro x hx
    rcases List.mem_append.mp hx with h | h
    · exact (by decide : ∀ x ∈ wTag, x.isWhitespace = false) x h
    · exact hw x h
  rw [hdec, splitWs_word_space measuredTag (by decide) (by decide) spaceChar_ws,
    splitWs_word _ htagW (by simp [show wTag ≠ [] from by decide])]

theorem sumD_nonneg (evs : List (ℚ × Line)) (h : ∀ e ∈ evs, 0 ≤ e.1) : 0 ≤ sumD evs := by
  induction evs with
  | nil => exact le_refl 0
  | cons e rest ih =>
    rw [sumD]
    exact add_nonneg (h e (by simp)) (ih (fun x hx => h x (by simp [hx])))

/-- The measurement loop on a script of non-`WEIGH_DONE` lines whose total
duration exceeds the timeout: it returns the all-absent record at the first
loop entry past the timeout, which lies in `(timeout, timeout + bound]` when
every single read takes at most `bound`. -/
theorem read_timed_all_unrelated (timeout bound : ℚ) (evs : List (ℚ × Line))
    (hnd : ∀ e ∈ evs, e.2 ≠ weighDone)
    (hdur : ∀ e ∈ evs, 0 < e.1 ∧ e.1 ≤ bound) :
    ∀ t0 m, t0 ≤ timeout → timeout < t0 + sumD evs →
      ∃ t, read_measurement_timed timeout t0 m evs = some (t, measNone, false) ∧
        timeout < t ∧ t ≤ timeout + bound := by
  induction evs with
  | nil =>
    intro t0 m h1 h2
    exfalso
    simp [sumD] at h2
    linarith
  | cons e rest ih =>
    intro t0 m h1 h2
    obtain ⟨d, line⟩ := e
    have hd := hdur (d, line) (by simp)
    have hl : line ≠ weighDone := hnd (d, line) (by simp)
    rw [read_measurement_timed, if_neg (not_lt.mpr h1), if_neg hl]
    simp only [sumD] at h2
    by_cases hcase : t0 + d ≤ timeout
    · exact ih (fun x hx => hnd x (by simp [hx])) (fun x hx => hdur x (by simp [hx]))
        (t0 + d) (processLine m line) hcase (by linarith)
    · push_neg at hcase
      refine ⟨t0 + d, ?_, hcase, by linarith [hd.2]⟩
      cases rest with
      | nil => rw [read_measurement_timed, if_pos hcase]
      | cons e2 rest2 =>
        obtain ⟨d2, l2⟩ := e2
        rw [read_measurement_timed, if_pos hcase]

/-- An acknowledgment wait succeeds, at time `t`, exactly when the script
contains the expected line, preceded only by unrelated lines, with the read
preceding it finishing within the timeout. -/
theorem wait_true_iff (expected : Line) (timeout : ℚ) (evs : List (ℚ × Line))
    (hnn : ∀ e ∈ evs, 0 ≤ e.1) :
    ∀ t0 t, (wait_for_arduino_timed expected timeout t0 evs = some (t, true) ↔
      ∃ pre d suf, evs = pre ++ (d, expected) :: suf ∧ (∀ e ∈ pre, e.2 ≠ expected) ∧
        t0 + sumD pre ≤ timeout ∧ t = t0 + sumD pre + d) := by
  induction evs with
  | nil =>
    intro t0 t
    constructor
    · intro h
      rw [wait_for_arduino_timed] at h
      split_ifs at h with h1; simp at h
    · rintro ⟨pre, d, suf, habs, -, -, -⟩
      exact absurd habs (by simp)
  | cons e rest ih =>
    intro t0 t
    obtain ⟨d0, l0⟩ := e
    have hnnrest : ∀ x ∈ rest, 0 ≤ x.1 := fun x hx => hnn x (by simp [hx])
    rw [wait_for_arduino_timed]
    by_cases h1 : timeout < t0
    · rw [if_pos h1]
      constructor
      · intro h; simp at h
      · rintro ⟨pre, d, suf, heq, hpre, hle, ht⟩
        exfalso
        have hpos : 0 ≤ sumD pre := sumD_nonneg pre
          (fun x hx => hnn x (by rw [heq]; exact List.mem_append.mpr (Or.inl hx)))
        linarith
    · rw [if_neg h1]
      push_neg at h1
      by_cases h2 : l0 = expected
      · subst h2
        rw [if_pos rfl]
        constructor
        · intro h
          simp at h
          exact ⟨[], d0, rest, by simp, by simp, by simpa [sumD] using h1,
            by simp [sumD, ← h]⟩
        · rintro ⟨pre, d, suf, heq, hpre, hle, ht⟩
          cases pre with
          | nil =>
            simp only [List.nil_append] at heq
            injection heq with hp htail
            have hd2 : d0 = d := congrArg Prod.fst hp
            rw [ht, ← hd2]
            simp [sumD]
          | cons p pre' =>
            exfalso
            rw [List.cons_append] at heq
            injection heq with hp htail
            exact hpre p (by simp) (by rw [← hp])
      · rw [if_neg h2]
        rw [ih hnnrest (t0 + d0) t]
        constructor
        · rintro ⟨pre, d, suf, heq, hpre, hle, ht⟩
          refine ⟨(d0, l0) :: pre, d, suf, by rw [List.cons_append, heq], ?_, ?_, ?_⟩
          · intro x hx
            rcases List.mem_cons.mp hx with hx | hx
            · rw [hx]; exact h2
            · exact hpre x hx
          · simp only [sumD]; linarith
          · simp only [sumD]; linarith
        · rintro ⟨pre, d, suf, heq, hpre, hle, ht⟩
          cases pre with
          | nil =>
            exfalso
            simp only [List.nil_append] at heq
            injection heq with hp htail
            exact h2 (congrArg Prod.snd hp)
          | cons p pre' =>
            rw [List.cons_append] at heq
            injection heq with hp htail
            rw [← hp] at hle ht
            simp only [sumD] at hle ht
            refine ⟨pre', d, suf, htail,
              fun x hx => hpre x (List.mem_cons_of_mem _ hx), by linarith, by linarith⟩

/-- An acknowledgment wait over only unrelated lines whose total duration
exceeds the timeout returns `false` strictly after the timeout. -/
theorem wait_false_timeout (expected : Line) (timeout : ℚ) (evs : List (ℚ × Line))
    (hne : ∀ e ∈ evs, e.2 ≠ expected) :
    ∀ t0, t0 ≤ timeout → timeout < t0 + sumD evs →
      ∃ t, wait_for_arduino_timed expected timeout t0 evs = some (t, false) ∧ timeout < t := by
  induction evs with
  | nil =>
    intro t0 h1 h2
    exfalso
    simp [sumD] at h2
    linarith
  | cons e rest ih =>
    intro t0 h1 h2
    obtain ⟨d0, l0⟩ := e
    rw [wait_for_arduino_timed, if_neg (not_lt.mpr h1), if_neg (hne (d0, l0) (by simp))]
    simp only [sumD] at h2
    by_cases hcase : t0 + d0 ≤ timeout
    · exact ih (fun x hx => hne x (by simp [hx])) (t0 + d0) hcase (by linarith)
    · push_neg at hcase
      refine ⟨t0 + d0, ?_, hcase⟩
      cases rest with
      | nil => rw [wait_for_arduino_timed, if_pos hcase]
      | cons e2 rest2 =>
        obtain ⟨d2, l2⟩ := e2
        rw [wait_for_arduino_timed, if_pos hcase]

/-! ### Claim theorems -/

/-- Claim C3: for every valid wire line `MEASURED W=<a><sa> T=<b><sb> H=<c><sc>`
whose numerals `a b c` parse to `va vb vc` and whose unit suffixes `sa sb sc`
contain no digit/sign/dot and no whitespace, the measurement reader on that
line followed by `WEIGH_DONE` returns exactly `(va, vb, vc)`: the suffix and
all other non-numeric characters are discarded before numeric parsing. -/
theorem measured_line_parses_exact (a sa b sb c sc : Line) (va vb vc : ℚ)
    (ha : ∀ x ∈ a, isNumChar x = true) (hb : ∀ x ∈ b, isNumChar x = true)
    (hc : ∀ x ∈ c, isNumChar x = true)
    (hsa : ∀ x ∈ sa, isNumChar x = false) (hsaw : ∀ x ∈ sa, x.isWhitespace = false)
    (hsb : ∀ x ∈ sb, isNumChar x = false) (hsbw : ∀ x ∈ sb, x.isWhitespace = false)
    (hsc : ∀ x ∈ sc, isNumChar x = false) (hscw : ∀ x ∈ sc, x.isWhitespace = false)
    (hpa : parseFloatQ a = some va) (hpb : parseFloatQ b = some vb)
    (hpc : parseFloatQ c = some vc) :
    read_measurement [measuredLine a sa b sb c sc, weighDone] =
      some ⟨some va, some vb, some vc⟩ := by
  have hne : measuredLine a sa b sb c sc ≠ weighDone := by
    intro hcontra
    have h0 : (measuredLine a sa b sb c sc).head? = (weighDone : Line).head? := by
      rw [hcontra]
    rw [show (measuredLine a sa b sb c sc).head? = some 'M' from rfl] at h0
    exact absurd h0 (by decide)
  have hchar := read_stream_characterization [measuredLine a sa b sb c sc]
    (by intro l hl; rw [List.mem_singleton] at hl; subst hl; exact hne)
  have hupds := lineUpds_measuredLine a sa b sb c sc va vb vc ha hb hc
    hsa hsaw hsb hsbw hsc hscw hpa hpb hpc
  rw [show ([measuredLine a sa b sb c sc, weighDone] : List Line) =
    [measuredLine a sa b sb c sc] ++ [weighDone] from rfl, hchar]
  simp only [streamWUpd, streamTUpd, streamHUpd, List.append_nil,
    hupds.1, hupds.2.1, hupds.2.2]
  rfl

/-- Claim C4: over a stream of `MEASURED` lines carrying arbitrary subsets of
the fields, terminated by `WEIGH_DONE`, the final record holds per field the
last successfully parsed value of the stream (or stays absent when there is
none): fields accumulate across lines, the last parse wins, and unparseable
tokens never overwrite a previously parsed field because they contribute no
update at all. -/
theorem measured_stream_union_last_wins (body : List Line)
    (h : ∀ l ∈ body, l ≠ weighDone) :
    read_measurement (body ++ [weighDone]) =
      some ⟨lastUpd none (streamWUpd body), lastUpd none (streamTUpd body),
        lastUpd none (streamHUpd body)⟩ :=
  read_stream_characterization body h

/-- Claim C5: with no `WEIGH_DONE` ever received, the measurement reader
returns the all-absent record at the configured timeout boundary: strictly
after `timeout` has elapsed (the check is `elapsed > timeout`), and at most
one read-duration bound past it, never unboundedly late. -/
theorem measurement_timeout_boundary (timeout bound : ℚ) (evs : List (ℚ × Line))
    (h0 : 0 ≤ timeout) (hnd : ∀ e ∈ evs, e.2 ≠ weighDone)
    (hdur : ∀ e ∈ evs, 0 < e.1 ∧ e.1 ≤ bound) (hsum : timeout < sumD evs) :
    ∃ t, read_measurement_timed timeout 0 measNone evs = some (t, measNone, false) ∧
      timeout < t ∧ t ≤ timeout + bound :=
  read_timed_all_unrelated timeout bound evs hnd hdur 0 measNone h0 (by simpa using hsum)

/-- Claim C6: whenever the measurement reader exits through its timeout branch
(third component `false`), the returned record is `(None, None, None)`, no
matter which fields had already been parsed from earlier `MEASURED` lines of
the same wait (initial record `m0` and script arbitrary). -/
theorem measurement_timeout_discards_partial (timeout t0 : ℚ) (m0 : Meas)
    (evs : List (ℚ × Line)) (t : ℚ) (m : Meas)
    (h : read_measurement_timed timeout t0 m0 evs = some (t, m, false)) : m = measNone := by
  induction evs generalizing t0 m0 with
  | nil =>
    rw [read_measurement_timed] at h
    split_ifs at h with h1
    exact (congrArg (fun p => p.2.1) (Option.some.inj h)).symm
  | cons e rest ih =>
    obtain ⟨d, line⟩ := e
    rw [read_measurement_timed] at h
    split_ifs at h with h1 h2
    · exact (congrArg (fun p => p.2.1) (Option.some.inj h)).symm
    · exfalso
      have hb := congrArg (fun p => p.2.2) (Option.some.inj h)
      simp at hb
    · exact ih (t0 + d) (processLine m0 line) h

/-- Claim C7: an acknowledgment wait returns `true` at time `t` exactly when
the expected line occurs in the script by exact equality, every earlier line
is unrelated and merely skipped, and the wait is still within the timeout when
that read starts; and over a script of only unrelated lines outlasting the
timeout it returns `false` (strictly after the timeout) instead of raising. -/
theorem ack_exact_match_iff_timeout_false (expected : Line) (timeout : ℚ)
    (evs : List (ℚ × Line)) (hnn : ∀ e ∈ evs, 0 ≤ e.1) :
    (∀ t, wait_for_arduino_timed expected timeout 0 evs = some (t, true) ↔
      ∃ pre d suf, evs = pre ++ (d, expected) :: suf ∧ (∀ e ∈ pre, e.2 ≠ expected) ∧
        sumD pre ≤ timeout ∧ t = sumD pre + d) ∧
    (0 ≤ timeout → (∀ e ∈ evs, e.2 ≠ expected) → timeout < sumD evs →
      ∃ t, wait_for_arduino_timed expected timeout 0 evs = some (t, false) ∧ timeout < t) := by
  constructor
  · intro t
    rw [wait_true_iff expected timeout evs hnn 0 t]
    constructor
    · rintro ⟨pre, d, suf, heq, hpre, hle, ht⟩
      exact ⟨pre, d, suf, heq, hpre, by linarith, by linarith⟩
    · rintro ⟨pre, d, suf, heq, hpre, hle, ht⟩
      exact ⟨pre, d, suf, heq, hpre, by linarith, by linarith⟩
  · intro h0 hne hsum
    exact wait_false_timeout expected timeout evs hne 0 h0 (by simpa using hsum)

/-- Claim C8: a measurement fragment whose value part contains no digit
(e.g. a line `MEASURED W=abc`) produces no update: the field stays absent and
no error is raised (the reader still returns normally at `WEIGH_DONE`). -/
theorem no_digit_fragment_no_update (val : Line)
    (hws : ∀ x ∈ val, x.isWhitespace = false)
    (hnd : ∀ x ∈ val, x.isDigit = false) :
    read_measurement [measuredWOnly val, weighDone] = some ⟨none, none, none⟩ := by
  have hne : measuredWOnly val ≠ weighDone := by
    intro hcontra
    have h0 : (measuredWOnly val).head? = (weighDone : Line).head? := by rw [hcontra]
    rw [show (measuredWOnly val).head? = some 'M' from rfl] at h0
    exact absurd h0 (by decide)
  have hchar := read_stream_characterization [measuredWOnly val]
    (by intro l hl; rw [List.mem_singleton] at hl; subst hl; exact hne)
  rw [show ([measuredWOnly val, weighDone] : List Line) =
    [measuredWOnly val] ++ [weighDone] from rfl, hchar]
  have hsplit := splitWs_measuredWOnly val hws
  have hlead : leadsWith measuredTag (measuredWOnly val) = true := by
    unfold measuredWOnly
    rw [show "MEASURED W=".data = measuredTag ++ spaceChar :: wTag from rfl,
      List.append_assoc]
    exact leadsWith_append _ _
  have hextract : extract_number val = none := by
    unfold extract_number
    exact parseFloatQ_no_digit _ (fun x hx => hnd x (List.mem_filter.mp hx).1)
  have hW : lineWUpd (measuredWOnly val) = [] := by
    simp [lineWUpd, hlead, hsplit, wUpdate_wPart, hextract]
  have hT : lineTUpd (measuredWOnly val) = [] := by
    simp [lineTUpd, hlead, hsplit, tUpdate_wPart]
  have hH : lineHUpd (measuredWOnly val) = [] := by
    simp [lineHUpd, hlead, hsplit, hUpdate_wPart]
  simp only [streamWUpd, streamTUpd, streamHUpd, hW, hT, hH, List.append_nil]
  rfl

/-! ### Witnesses -/

theorem toNat_digit0 : '0'.toNat = 48 := rfl
theorem toNat_digit1 : '1'.toNat = 49 := rfl
theorem toNat_digit2 : '2'.toNat = 50 := rfl
theorem toNat_digit3 : '3'.toNat = 51 := rfl
theorem toNat_digit4 : '4'.toNat = 52 := rfl
theorem toNat_digit5 : '5'.toNat = 53 := rfl

/-- The wire line of the spec's end-to-end scenario, split across a boot
banner and two partial `MEASURED` lines. -/
def scenarioBody : List Line :=
  ["BOOT OK".data, "MEASURED W=12.3g T=25.0C H=40.1%".data, "MEASURED H=41.0%".data]

theorem measured_line_parses_exact_witness :
    read_measurement
        [measuredLine "12.3".data "g".data "25.0".data "C".data "40.1".data "%".data,
          weighDone] =
      some ⟨some (123/10), some 25, some (401/10)⟩ :=
  measured_line_parses_exact _ _ _ _ _ _ _ _ _
    (by decide) (by decide) (by decide)
    (by decide) (by decide) (by decide) (by decide) (by decide) (by decide)
    (by norm_num +decide [parseFloatQ, parseUnsigned, splitDot, digitsToNat,
      toNat_digit1, toNat_digit2, toNat_digit3])
    (by norm_num +decide [parseFloatQ, parseUnsigned, splitDot, digitsToNat,
      toNat_digit0, toNat_digit2, toNat_digit5])
    (by norm_num +decide [parseFloatQ, parseUnsigned, splitDot, digitsToNat,
      toNat_digit0, toNat_digit1, toNat_digit4])

theorem measured_stream_union_last_wins_witness :
    read_measurement (scenarioBody ++ [weighDone]) =
      some ⟨some (123/10), some 25, some 41⟩ := by
  rw [measured_stream_union_last_wins scenarioBody (by decide)]
  norm_num +decide [scenarioBody, streamWUpd, streamTUpd, streamHUpd, lineWUpd, lineTUpd,
    lineHUpd, wUpdate, tUpdate, hUpdate, leadsWith, splitWs, splitWsAux, extract_number,
    parseFloatQ, parseUnsigned, splitDot, digitsToNat, isNumChar, afterFirstEq, lastUpd,
    measuredTag, wTag, tTag, hTag, List.filter_cons, List.filter_nil,
    toNat_digit0, toNat_digit1, toNat_digit2, toNat_digit3, toNat_digit4, toNat_digit5]

theorem measurement_timeout_boundary_witness :
    ∃ t, read_measurement_timed 20 0 measNone [(2, "BOOT OK".data), (19, [])] =
      some (t, measNone, false) ∧ 20 < t ∧ t ≤ 20 + 19 :=
  measurement_timeout_boundary 20 19 [(2, "BOOT OK".data), (19, [])]
    (by decide) (by decide) (by decide) (by norm_num [sumD])

theorem measurement_timeout_discards_partial_witness :
    read_measurement_timed 20 0 measNone [(1, "MEASURED W=12.3g".data), (20, [])] =
        some (21, measNone, false) ∧
      measNone = measNone := by
  have hEval : read_measurement_timed 20 0 measNone
      [(1, "MEASURED W=12.3g".data), (20, [])] = some (21, measNone, false) := by
    norm_num +decide [read_measurement_timed]
  exact ⟨hEval,
    measurement_timeout_discards_partial 20 0 measNone _ 21 measNone hEval⟩

theorem ack_exact_match_iff_timeout_false_witness :
    ∃ t, wait_for_arduino_timed atCapture 15 0 [(8, "BOOT OK".data), (8, "tick".data)] =
      some (t, false) ∧ 15 < t :=
  (ack_exact_match_iff_timeout_false atCapture 15 [(8, "BOOT OK".data), (8, "tick".data)]
    (by decide)).2 (by decide) (by decide) (by norm_num [sumD])

theorem no_digit_fragment_no_update_witness :
    read_measurement [measuredWOnly "abc".data, weighDone] = some ⟨none, none, none⟩ :=
  no_digit_fragment_no_update "abc".data (by decide) (by decide)

/-! ### Orchestrator claims -/

/-- A scripted cycle whose capture-acknowledgment wait sees only unrelated
lines for 16 s, past the 15 s timeout. -/
def envC1 : CycleEnv := ⟨[(8, "BOOT OK".data), (8, "tick".data)], true, [], []⟩

/-- Counterexample to claim C1 as stated: at `envC1` the `AT_CAPTURE` wait
does return `false` without raising, but the orchestrator then skips the
sample entirely (`continue`, src/finalv1.py:265-267): the only command byte
sent is `'C'` — the weigh command `'W'` is never sent, no measurement is
collected, and no row is recorded — contradicting "still attempts the weigh
step". -/
theorem capture_timeout_skips_weigh_cex :
    wait_for_arduino_timed atCapture 15 0 envC1.captureAck = some (16, false) ∧
      run_cycle envC1 = some ⟨['C'], false, none⟩ ∧
      (run_cycle envC1).map (fun r => r.cmds.contains 'W') = some false ∧
      (run_cycle envC1).map CycleResult.recorded = some none := by
  have hWait : wait_for_arduino_timed atCapture 15 0 envC1.captureAck =
      some (16, false) := by
    norm_num +decide [envC1, wait_for_arduino_timed]
  have hRun : run_cycle envC1 = some ⟨['C'], false, none⟩ := by
    rw [run_cycle, hWait]
  refine ⟨hWait, hRun, ?_, ?_⟩ <;> rw [hRun] <;> rfl

/-- Claim C1 as amended: when the `AT_CAPTURE` wait times out, it returns
`false` without raising, and the orchestrator skips the remainder of the cycle
body — only `'C'` was sent, no frame is captured, no weigh command is sent, no
measurement is collected, no row is recorded — and the sample index is reused
for the next cycle. -/
theorem capture_timeout_skips_weigh (env : CycleEnv) (t : ℚ)
    (h : wait_for_arduino_timed atCapture 15 0 env.captureAck = some (t, false)) :
    run_cycle env = some ⟨['C'], false, none⟩ := by
  rw [run_cycle, h]

theorem capture_timeout_skips_weigh_witness :
    run_cycle envC1 = some ⟨['C'], false, none⟩ :=
  capture_timeout_skips_weigh envC1 16
    (by norm_num +decide [envC1, wait_for_arduino_timed])

theorem run_cycles_consecutive (envs : List CycleEnv) :
    ∀ i rows finalIdx, run_cycles i envs = some (rows, finalIdx) →
      rows.map Prod.fst = List.range' i rows.length ∧ finalIdx = i + rows.length := by
  induction envs with
  | nil =>
    intro i rows finalIdx h
    rw [run_cycles] at h
    obtain ⟨h1, h2⟩ := Prod.mk.injEq .. ▸ Option.some.inj h
    rw [← h1, ← h2]
    simp [List.range']
  | cons env rest ih =>
    intro i rows finalIdx h
    rw [run_cycles] at h
    cases hc : run_cycle env with
    | none => rw [hc] at h; exact absurd h (by simp)
    | some r =>
      rw [hc] at h
      dsimp only at h
      cases hr : r.recorded with
      | none =>
        rw [hr] at h
        exact ih i rows finalIdx h
      | some m =>
        rw [hr] at h
        dsimp only at h
        cases hrec : run_cycles (i + 1) rest with
        | none => rw [hrec] at h; exact absurd h (by simp)
        | some pr =>
          obtain ⟨rows', fi'⟩ := pr
          rw [hrec] at h
          dsimp only at h
          obtain ⟨hrows, hfi⟩ := Prod.mk.injEq .. ▸ Option.some.inj h
          obtain ⟨ihrows, ihfi⟩ := ih (i + 1) rows' fi' hrec
          rw [← hrows, ← hfi]
          constructor
          · rw [List.map_cons, List.length_cons, List.range'_succ, ihrows]
          · rw [ihfi, List.length_cons]
            omega

/-- Claim C2: over any scripted run, every iteration that reaches the
recording step emits exactly one row and advances the sample index by exactly
1 — regardless of capture, measurement or home-ack failures inside it — so the
recorded indices are exactly 1, 2, …, and the final index is 1 plus the number
of recorded cycles. -/
theorem cycle_index_increments (envs : List CycleEnv) (rows : List (ℕ × Meas))
    (finalIdx : ℕ) (h : run_cycles 1 envs = some (rows, finalIdx)) :
    rows.map Prod.fst = List.range' 1 rows.length ∧ finalIdx = 1 + rows.length :=
  run_cycles_consecutive envs 1 rows finalIdx h

/-- A fully scripted successful cycle: prompt acknowledged, measurement
terminates immediately, home acknowledged. -/
def envOk : CycleEnv := ⟨[(1, atCapture)], true, [(1, weighDone)], [(1, atHome)]⟩

/-- A cycle skipped by a capture-acknowledgment timeout, in the middle of two
recorded ones. -/
def envSkip : CycleEnv := ⟨[(16, "tick".data)], true, [], []⟩

theorem cycle_index_increments_witness :
    run_cycles 1 [envOk, envSkip, envOk] = some ([(1, measNone), (2, measNone)], 3) ∧
      ([(1, measNone), (2, measNone)] : List (ℕ × Meas)).map Prod.fst =
        List.range' 1 [(1, measNone), (2, measNone)].length ∧
      3 = 1 + [(1, measNone), (2, measNone)].length := by
  have hEval : run_cycles 1 [envOk, envSkip, envOk] =
      some ([(1, measNone), (2, measNone)], 3) := by
    norm_num +decide [envOk, envSkip, run_cycles, run_cycle, wait_for_arduino_timed,
      read_measurement_timed, processLine, measNone]
  exact ⟨hEval, cycle_index_increments [envOk, envSkip, envOk] _ 3 hEval⟩

/-! ### Image claims -/

/-- `apply_crop` returns the frame untouched whenever the clamped rectangle
`[max 0 cx, min w (max 0 cx + cw)) × [max 0 cy, min h (max 0 cy + ch))` is
empty. -/
theorem apply_crop_empty (enable : Bool) (cx cy cw ch : ℤ) (img : Img)
    (hcond : min (img.w : ℤ) (max 0 cx + cw) ≤ max 0 cx ∨
      min (img.h : ℤ) (max 0 cy + ch) ≤ max 0 cy) :
    apply_crop enable cx cy cw ch img = img := by
  cases enable with
  | false => rfl
  | true =>
    simp only [apply_crop]
    rw [if_neg (by simp)]
    rw [if_pos hcond]

/-- Claim C9: (1) whenever the crop rectangle, clamped to the frame, has empty
intersection with the frame bounds, `apply_crop` returns the original frame
unchanged rather than failing; (2) in particular a rectangle lying entirely
outside the frame (for the nonnegative corner coordinates the configuration
uses) leaves the frame unchanged; (3) in the cycle body the crop is applied
before enhancement: the enhanced artifact is computed from the cropped frame. -/
theorem crop_empty_unchanged_and_precedes_enhance :
    (∀ (enable : Bool) (cx cy cw ch : ℤ) (img : Img),
      (min (img.w : ℤ) (max 0 cx + cw) ≤ max 0 cx ∨
        min (img.h : ℤ) (max 0 cy + ch) ≤ max 0 cy) →
      apply_crop enable cx cy cw ch img = img) ∧
    (∀ (cx cy cw ch : ℤ) (img : Img), 0 ≤ cx → 0 ≤ cy →
      ((img.w : ℤ) ≤ cx ∨ (img.h : ℤ) ≤ cy ∨ cx + cw ≤ 0 ∨ cy + ch ≤ 0) →
      apply_crop true cx cy cw ch img = img) ∧
    (∀ (ops : CvOps) (enable : Bool) (cx cy cw ch : ℤ) (frame : Img),
      (capture_step ops enable cx cy cw ch frame).2 =
        enhance_image_soft ops (apply_crop enable cx cy cw ch frame)) := by
  refine ⟨apply_crop_empty, ?_, fun ops enable cx cy cw ch frame => rfl⟩
  intro cx cy cw ch img hx hy hout
  apply apply_crop_empty
  have hmx : max 0 cx = cx := max_eq_right hx
  have hmy : max 0 cy = cy := max_eq_right hy
  rcases hout with h | h | h | h
  · exact Or.inl (by rw [hmx]; exact le_trans (min_le_left _ _) h)
  · exact Or.inr (by rw [hmy]; exact le_trans (min_le_left _ _) h)
  · refine Or.inl ?_
    rw [hmx]
    have := min_le_right (img.w : ℤ) (cx + cw)
    linarith
  · refine Or.inr ?_
    rw [hmy]
    have := min_le_right (img.h : ℤ) (cy + ch)
    linarith

/-- A 2×2 black test frame. -/
def img0 : Img := ⟨2, 2, fun _ _ => (0, 0, 0)⟩

theorem crop_empty_unchanged_and_precedes_enhance_witness :
    apply_crop true 200 0 50 50 img0 = img0 ∧ apply_crop true 5 500 20 20 img0 = img0 :=
  ⟨crop_empty_unchanged_and_precedes_enhance.1 true 200 0 50 50 img0 (by decide),
    crop_empty_unchanged_and_precedes_enhance.2.1 5 500 20 20 img0
      (by decide) (by decide) (Or.inl (by decide))⟩

/-- Claim C10: `enhance_image_soft` is a pure deterministic transform — equal
input frames give bit-for-bit equal outputs — and it is the composition of the
local contrast stage (CLAHE, clip limit 1.5 = 3/2, 8×8 tile grid, applied to
the luminance channel only, the other two channels of the LAB frame passing
through unchanged) followed by the fixed 3×3 sharpening convolution whose
kernel has centre weight 1.8 = 9/5, edge-neighbour weights −0.2 = −1/5 and
corner weights 0. -/
theorem enhance_pure_and_ordered :
    (∀ (ops : CvOps) (i1 i2 : Img), i1 = i2 →
      enhance_image_soft ops i1 = enhance_image_soft ops i2) ∧
    (∀ (ops : CvOps) (img : Img),
      enhance_image_soft ops img =
        ops.filter2D sharpen_kernel (clahe_merge_stage ops img)) ∧
    (∀ (l a b : Chan), (chanA (mergeChans l a b)).px = a.px ∧
      (chanB2 (mergeChans l a b)).px = b.px) ∧
    sharpen_kernel 1 1 = 9/5 ∧
    (sharpen_kernel 0 1 = -1/5 ∧ sharpen_kernel 1 0 = -1/5 ∧
      sharpen_kernel 1 2 = -1/5 ∧ sharpen_kernel 2 1 = -1/5) ∧
    (sharpen_kernel 0 0 = 0 ∧ sharpen_kernel 0 2 = 0 ∧
      sharpen_kernel 2 0 = 0 ∧ sharpen_kernel 2 2 = 0) :=
  ⟨fun ops i1 i2 h => by rw [h],
    fun ops img => rfl,
    fun l a b => ⟨rfl, rfl⟩,
    rfl, ⟨rfl, rfl, rfl, rfl⟩, ⟨rfl, rfl, rfl, rfl⟩⟩

/-- OpenCV primitives instantiated by identities, to exercise the purity
statement at a concrete input. -/
def idOps : CvOps := ⟨fun i => i, fun i => i, fun _ _ _ c => c, fun _ i => i⟩

theorem enhance_pure_and_ordered_witness :
    enhance_image_soft idOps img0 = enhance_image_soft idOps img0 :=
  enhance_pure_and_ordered.1 idOps img0 img0 rfl

end TEAI
